import Mathlib

/-!
Verification of the sovereign daemon against its natural-language
specification.  The Rust sources are shallowly embedded: pure string
processing is carried out on `List Char`, machine integers become `Nat`
(with explicit wrap-around where the code wraps), fallible operations
return `Option` or `Except`, and stateful code is modelled by explicit
state passing.  Floating-point scores are embedded as exact rationals,
with the single transcendental `ln(1 + t)` abstracted as a function
parameter shared by code side and specification side.
-/

namespace Sovereign

/-! ## Basic character-list utilities (Rust `str` operations) -/

/-- Lowercasing, as Rust `to_lowercase` restricted to the ASCII range the
repository actually matches on. -/
def lowerChar (c : Char) : Char :=
  if c.toNat ≥ 65 ∧ c.toNat ≤ 90 then Char.ofNat (c.toNat + 32) else c

def lowerStr (s : List Char) : List Char :=
  s.map lowerChar

/-- Whitespace test used by Rust `trim` / `split_whitespace` (ASCII subset). -/
def isWs (c : Char) : Bool :=
  c = ' ' ∨ c = '\t' ∨ c = '\n' ∨ c = '\r'

/-- Rust `str::trim`. -/
def trimStr (s : List Char) : List Char :=
  ((s.dropWhile isWs).reverse.dropWhile isWs).reverse

/-- Accumulator pass behind `splitWs`; `cur` is the reversed current
token. -/
def splitWsAux (cur : List Char) (s : List Char) : List (List Char) :=
  match s with
  | [] => if cur = [] then [] else [cur.reverse]
  | c :: rest =>
    if isWs c then
      if cur = [] then splitWsAux [] rest
      else cur.reverse :: splitWsAux [] rest
    else
      splitWsAux (c :: cur) rest

/-- Rust `str::split_whitespace`: splits on runs of whitespace, yielding no
empty terms. -/
def splitWs (s : List Char) : List (List Char) :=
  splitWsAux [] s

/-- Rust `str::lines`: split on newline, dropping one trailing empty line and
stripping a trailing carriage return from each line. -/
def rustLinesAux (s : List Char) : List (List Char) :=
  match s with
  | [] => [[]]
  | c :: rest =>
    if c = '\n' then [] :: rustLinesAux rest
    else
      match rustLinesAux rest with
      | [] => [[c]]
      | l :: ls => (c :: l) :: ls

def stripCr (l : List Char) : List Char :=
  match l.reverse with
  | '\r' :: r => r.reverse
  | _ => l

def rustLines (s : List Char) : List (List Char) :=
  match s with
  | [] => []
  | _ =>
    let raw := rustLinesAux s
    let raw := if raw.getLast? = some [] then raw.dropLast else raw
    raw.map stripCr

/-- Rust `str::splitn(2, ' ')`, as used by the orchestrator command parser. -/
def splitn2 (s : List Char) : List Char × Option (List Char) :=
  match s.findIdx? (· = ' ') with
  | none => (s, none)
  | some i => (s.take i, some (s.drop (i + 1)))

/-- Scanner behind `countOcc`: after a match, `skip` characters still
belong to the matched occurrence and are passed over. -/
def countOccAux (pat : List Char) : List Char → ℕ → ℕ
  | [], _ => 0
  | _ :: rest, skip + 1 => countOccAux pat rest skip
  | c :: rest, 0 =>
    if pat ≠ [] ∧ pat.isPrefixOf (c :: rest) then
      1 + countOccAux pat rest (pat.length - 1)
    else
      countOccAux pat rest 0

/-- Count of non-overlapping occurrences of a pattern, as Rust
`str::matches(pat).count()` (patterns here are never empty). -/
def countOcc (pat text : List Char) : ℕ :=
  countOccAux pat text 0

/-- Substring test, as Rust `str::contains`. -/
def containsSub (text pat : List Char) : Bool :=
  decide (pat <:+: text)

/-- Rust `str::starts_with`. -/
def startsWithStr (s pre : List Char) : Bool :=
  pre.isPrefixOf s

/-! ## Big-endian 64-bit length prefixes (sync wire protocol) -/

/-- The 8-byte big-endian encoding of a `u64`, as `u64::to_be_bytes`. -/
def be64 (n : ℕ) : List ℕ :=
  [n / 2 ^ 56 % 256, n / 2 ^ 48 % 256, n / 2 ^ 40 % 256, n / 2 ^ 32 % 256,
   n / 2 ^ 24 % 256, n / 2 ^ 16 % 256, n / 2 ^ 8 % 256, n % 256]

/-- Big-endian decoding, as `u64::from_be_bytes`. -/
def beDecode (bs : List ℕ) : ℕ :=
  bs.foldl (fun acc b => acc * 256 + b) 0

/-! ## SHA-256 (the `sha2` crate computation behind `compute_hash`),
implemented over `Nat` with explicit 32-bit wrap-around. -/

def w32 (n : ℕ) : ℕ := n % 4294967296

def rotr32 (r n : ℕ) : ℕ := w32 ((n >>> r) ||| (n <<< (32 - r)))

def shaK : List ℕ :=
  [1116352408, 1899447441, 3049323471, 3921009573, 961987163,
   1508970993, 2453635748, 2870763221, 3624381080, 310598401,
   607225278, 1426881987, 1925078388, 2162078206, 2614888103,
   3248222580, 3835390401, 4022224774, 264347078, 604807628,
   770255983, 1249150122, 1555081692, 1996064986, 2554220882,
   2821834349, 2952996808, 3210313671, 3336571891, 3584528711,
   113926993, 338241895, 666307205, 773529912, 1294757372,
   1396182291, 1695183700, 1986661051, 2177026350, 2456956037,
   2730485921, 2820302411, 3259730800, 3345764771, 3516065817,
   3600352804, 4094571909, 275423344, 430227734, 506948616,
   659060556, 883997877, 958139571, 1322822218, 1537002063,
   1747873779, 1955562222, 2024104815, 2227730452, 2361852424,
   2428436474, 2756734187, 3204031479, 3329325298]

def shaH0 : List ℕ :=
  [1779033703, 3144134277, 1013904242, 2773480762,
   1359893119, 2600822924, 528734635, 1541459225]

/-- UTF-8 encoding of a character list (Rust strings hash their UTF-8 bytes). -/
def utf8Bytes (c : Char) : List ℕ :=
  let n := c.toNat
  if n < 0x80 then [n]
  else if n < 0x800 then [0xc0 ||| (n >>> 6), 0x80 ||| (n &&& 0x3f)]
  else if n < 0x10000 then
    [0xe0 ||| (n >>> 12), 0x80 ||| ((n >>> 6) &&& 0x3f), 0x80 ||| (n &&& 0x3f)]
  else
    [0xf0 ||| (n >>> 18), 0x80 ||| ((n >>> 12) &&& 0x3f),
     0x80 ||| ((n >>> 6) &&& 0x3f), 0x80 ||| (n &&& 0x3f)]

def utf8Encode (s : List Char) : List ℕ :=
  s.flatMap utf8Bytes

def shaPad (msg : List ℕ) : List ℕ :=
  let l := msg.length
  let k := (64 - (l + 9) % 64) % 64
  msg ++ [0x80] ++ List.replicate k 0 ++ be64 (8 * l)

def chunks64 (bs : List ℕ) : List (List ℕ) :=
  match bs with
  | [] => []
  | b :: rest => ((b :: rest).take 64) :: chunks64 ((b :: rest).drop 64)
termination_by bs.length
decreasing_by
  simp only [List.length_drop, List.length_cons]
  omega

def beWord (g : List ℕ) : ℕ :=
  g.foldl (fun acc b => acc * 256 + b) 0

def toWords16 (chunk : List ℕ) : List ℕ :=
  (List.range 16).map (fun i => beWord ((chunk.drop (4 * i)).take 4))

def shaExtend (ws : List ℕ) (i : ℕ) : List ℕ :=
  match i with
  | 0 => ws
  | j + 1 =>
    let ws := shaExtend ws j
    let idx := ws.length
    let w15 := ws.getD (idx - 15) 0
    let w2 := ws.getD (idx - 2) 0
    let s0 := rotr32 7 w15 ^^^ rotr32 18 w15 ^^^ (w15 >>> 3)
    let s1 := rotr32 17 w2 ^^^ rotr32 19 w2 ^^^ (w2 >>> 10)
    ws ++ [w32 (ws.getD (idx - 16) 0 + s0 + ws.getD (idx - 7) 0 + s1)]

def shaRound (st : List ℕ) (kw : ℕ × ℕ) : List ℕ :=
  let a := st.getD 0 0
  let b := st.getD 1 0
  let c := st.getD 2 0
  let d := st.getD 3 0
  let e := st.getD 4 0
  let f := st.getD 5 0
  let g := st.getD 6 0
  let h := st.getD 7 0
  let s1 := rotr32 6 e ^^^ rotr32 11 e ^^^ rotr32 25 e
  let ch := (e &&& f) ^^^ ((4294967295 - e) &&& g)
  let temp1 := w32 (h + s1 + ch + kw.1 + kw.2)
  let s0 := rotr32 2 a ^^^ rotr32 13 a ^^^ rotr32 22 a
  let maj := (a &&& b) ^^^ (a &&& c) ^^^ (b &&& c)
  let temp2 := w32 (s0 + maj)
  [w32 (temp1 + temp2), a, b, c, w32 (d + temp1), e, f, g]

def shaCompress (h : List ℕ) (chunk : List ℕ) : List ℕ :=
  let ws := shaExtend (toWords16 chunk) 48
  let st := (shaK.zip ws).foldl shaRound h
  (h.zip st).map (fun p => w32 (p.1 + p.2))

def hexDigit (n : ℕ) : Char :=
  if n < 10 then Char.ofNat (48 + n) else Char.ofNat (87 + n)

def hex8 (n : ℕ) : List Char :=
  (List.range 8).map (fun i => hexDigit (n >>> (4 * (7 - i)) &&& 15))

/-- The hex-encoded SHA-256 of a string, as `CodebaseIndex::compute_hash`
(`Sha256::digest` then `hex::encode`). -/
def compute_hash (content : List Char) : List Char :=
  let digest := (chunks64 (shaPad (utf8Encode content))).foldl shaCompress shaH0
  digest.flatMap hex8

/-! ## Substring splitting (Rust `str::split(pattern)` and `str::find`) -/

/-- Recursion behind `splitOnSub`, driven by fuel so that the skip over
each matched occurrence stays structural; `text.length` fuel always
suffices since every step consumes at least one character. -/
def splitOnSubGo (pat : List Char) : ℕ → List Char → List (List Char)
  | _, [] => [[]]
  | 0, _ => [[]]
  | fuel + 1, c :: rest =>
    if pat ≠ [] ∧ pat.isPrefixOf (c :: rest) then
      [] :: splitOnSubGo pat fuel (rest.drop (pat.length - 1))
    else
      match splitOnSubGo pat fuel rest with
      | [] => [[c]]
      | p :: ps => (c :: p) :: ps

/-- Rust `str::split(pat)` for a nonempty substring pattern. -/
def splitOnSub (pat text : List Char) : List (List Char) :=
  splitOnSubGo pat text.length text

/-- The suffix of the text after the first occurrence of a pattern, as the
slice `line[idx + kw.len()..]` following Rust `str::find`. -/
def afterFirst (pat text : List Char) : Option (List Char) :=
  match text with
  | [] => if pat = [] then some [] else none
  | _ :: rest =>
    if pat ≠ [] ∧ pat.isPrefixOf text then some (text.drop pat.length)
    else afterFirst pat rest

/-! ## Embedding of `src/storage/codebase.rs` -/

/-- Rust `char::is_alphanumeric || c == underscore` as used by the symbol
extractors (ASCII range, which is all the heuristics match on). -/
def isWordChar (c : Char) : Bool :=
  c.isAlphanum ∨ c = '_'

/-- Rust `Path::extension`: the part of the file name after its last dot,
none when the only dot (if any) leads the name. -/
def rustExtension (path : List Char) : Option (List Char) :=
  let name := (path.reverse.takeWhile (· ≠ '/')).reverse
  match name with
  | [] => none
  | _ :: rest =>
    if '.' ∈ rest then some ((name.reverse.takeWhile (· ≠ '.')).reverse)
    else none

/-- The `CodebaseIndex::detect_language` extension table. -/
def detect_language (path : List Char) : Option (List Char) :=
  match rustExtension path with
  | none => none
  | some e =>
    let e := lowerStr e
    if e = "rs".data then some "rust".data
    else if e = "py".data then some "python".data
    else if e = "js".data then some "javascript".data
    else if e = "ts".data then some "typescript".data
    else if e = "tsx".data then some "typescript".data
    else if e = "jsx".data then some "javascript".data
    else if e = "go".data then some "go".data
    else if e = "java".data then some "java".data
    else if e = "kt".data then some "kotlin".data
    else if e = "c".data ∨ e = "h".data then some "c".data
    else if e = "cpp".data ∨ e = "cc".data ∨ e = "hpp".data then some "cpp".data
    else if e = "cs".data then some "csharp".data
    else if e = "rb".data then some "ruby".data
    else if e = "php".data then some "php".data
    else if e = "swift".data then some "swift".data
    else if e = "scala".data then some "scala".data
    else if e = "sh".data ∨ e = "bash".data then some "shell".data
    else if e = "sql".data then some "sql".data
    else if e = "html".data then some "html".data
    else if e = "css".data then some "css".data
    else if e = "json".data then some "json".data
    else if e = "yaml".data ∨ e = "yml".data then some "yaml".data
    else if e = "toml".data then some "toml".data
    else if e = "md".data then some "markdown".data
    else none

/-- Embedding of `CodebaseIndex::extract_fn_name`. -/
def extract_fn_name (line pre : List Char) : Option (List Char) :=
  match (splitOnSub pre line).get? 1 with
  | none => none
  | some a =>
    let name := a.takeWhile isWordChar
    if name = [] then none else some name

/-- Embedding of `CodebaseIndex::extract_after`; Rust `split(..).last()` is always
`Some` since a split is never empty, so the default is never consulted. -/
def extract_after (line pre : List Char) : Option (List Char) :=
  let a := (splitOnSub pre line).getLastD []
  let name := (a.dropWhile (fun c => isWs c)).takeWhile isWordChar
  if name = [] then none else some name

/-- Embedding of `CodebaseIndex::extract_const_name`. -/
def extract_const_name (line : List Char) : Option (List Char) :=
  let parts := splitOnSub "const ".data line
  match parts.get? 1 with
  | none => none
  | some a =>
    let name := a.takeWhile isWordChar
    if name = [] then none else some name

/-- One keyword attempt of `CodebaseIndex::extract_java_class`. -/
def javaClassName (kw line : List Char) : Option (List Char) :=
  match afterFirst kw line with
  | none => none
  | some a =>
    let name := (a.dropWhile (fun c => isWs c)).takeWhile isWordChar
    if name = [] then none else some name

/-- Embedding of `CodebaseIndex::extract_java_class`: try `class ` then `interface `. -/
def extract_java_class (line : List Char) : Option (List Char) :=
  match javaClassName "class ".data line with
  | some n => some n
  | none => javaClassName "interface ".data line

/-- Symbols contributed by one (trimmed) line, per language, following the
`extract_symbols` match. -/
def symbols_of_line (language trimmed : List Char) : List (List Char) :=
  if language = "rust".data then
    if startsWithStr trimmed "fn ".data ∨ startsWithStr trimmed "pub fn ".data then
      match extract_fn_name trimmed "fn ".data with
      | some n => ["fn:".data ++ n]
      | none => []
    else if startsWithStr trimmed "struct ".data ∨ startsWithStr trimmed "pub struct ".data then
      match extract_after trimmed "struct ".data with
      | some n => ["struct:".data ++ n]
      | none => []
    else if startsWithStr trimmed "enum ".data ∨ startsWithStr trimmed "pub enum ".data then
      match extract_after trimmed "enum ".data with
      | some n => ["enum:".data ++ n]
      | none => []
    else if startsWithStr trimmed "impl ".data then
      match extract_after trimmed "impl ".data with
      | some n => ["impl:".data ++ n]
      | none => []
    else []
  else if language = "python".data then
    if startsWithStr trimmed "def ".data then
      match extract_fn_name trimmed "def ".data with
      | some n => ["def:".data ++ n]
      | none => []
    else if startsWithStr trimmed "class ".data then
      match extract_after trimmed "class ".data with
      | some n => ["class:".data ++ n]
      | none => []
    else []
  else if language = "javascript".data ∨ language = "typescript".data then
    if startsWithStr trimmed "function ".data then
      match extract_fn_name trimmed "function ".data with
      | some n => ["function:".data ++ n]
      | none => []
    else if startsWithStr trimmed "class ".data then
      match extract_after trimmed "class ".data with
      | some n => ["class:".data ++ n]
      | none => []
    else if containsSub trimmed "const ".data ∧ containsSub trimmed " = ".data then
      match extract_const_name trimmed with
      | some n => ["const:".data ++ n]
      | none => []
    else []
  else if language = "go".data then
    if startsWithStr trimmed "func ".data then
      match extract_fn_name trimmed "func ".data with
      | some n => ["func:".data ++ n]
      | none => []
    else if startsWithStr trimmed "type ".data ∧ containsSub trimmed " struct".data then
      match extract_after trimmed "type ".data with
      | some n => ["struct:".data ++ n]
      | none => []
    else []
  else if language = "java".data ∨ language = "kotlin".data then
    if (containsSub trimmed "class ".data ∨ containsSub trimmed "interface ".data)
        ∧ ¬ startsWithStr trimmed "//".data then
      match extract_java_class trimmed with
      | some n => ["class:".data ++ n]
      | none => []
    else []
  else []

/-- Embedding of `CodebaseIndex::extract_symbols`: line-by-line heuristic extraction,
order of appearance preserved. -/
def extract_symbols (content language : List Char) : List (List Char) :=
  (rustLines content).flatMap (fun line => symbols_of_line language (trimStr line))

/-- A row of the `files` table. -/
structure IndexedFile where
  path : List Char
  relative_path : List Char
  language : List Char
  size : ℕ
  hash : List Char
  content : List Char
  summary : Option (List Char)
  symbols : List (List Char)
  indexed_at : ℕ
deriving DecidableEq

/-- The `codebase.db` state: the `files` table plus the `files_fts`
full-text mirror of `(path, content, symbols)`. -/
structure CodebaseDb where
  files : List IndexedFile
  fts : List (List Char × List Char × List (List Char))
deriving DecidableEq

/-- SQL `INSERT OR REPLACE` keyed on `path`. -/
def insertOrReplaceFile (rows : List IndexedFile) (row : IndexedFile) : List IndexedFile :=
  if rows.any (fun r => r.path = row.path) then
    rows.map (fun r => if r.path = row.path then row else r)
  else
    rows ++ [row]

/-- SQL `INSERT OR REPLACE` on the full-text mirror. -/
def ftsUpsert (rows : List (List Char × List Char × List (List Char)))
    (row : List Char × List Char × List (List Char)) :
    List (List Char × List Char × List (List Char)) :=
  if rows.any (fun r => r.1 = row.1) then
    rows.map (fun r => if r.1 = row.1 then row else r)
  else
    rows ++ [row]

/-- A regular file met by the directory walk: its path and the result of
`fs::read_to_string` (`none` when the file is unreadable). -/
structure FsEntry where
  path : List Char
  readResult : Option (List Char)
deriving DecidableEq

/-- Embedding of `CodebaseIndex::index_file`.  An unreadable file is given empty content
by `unwrap_or_default`; a path whose stored hash equals the hash of the
current content is skipped (the `Err("File unchanged")` early return is the
`none` branch); otherwise a row is written to `files` and mirrored into the
full-text index. -/
def index_file (root : List Char) (now : ℕ) (db : CodebaseDb) (e : FsEntry)
    (language : List Char) : Option (CodebaseDb × IndexedFile) :=
  let content := e.readResult.getD []
  let hash := compute_hash content
  let existing := (db.files.find? (fun r => r.path = e.path)).map (fun r => r.hash)
  if existing = some hash then
    none
  else
    let relative_path := if root.isPrefixOf e.path then e.path.drop root.length else e.path
    let symbols := extract_symbols content language
    let row : IndexedFile :=
      ⟨e.path, relative_path, language, (utf8Encode content).length, hash, content,
       none, symbols, now⟩
    some (⟨insertOrReplaceFile db.files row, ftsUpsert db.fts (e.path, content, symbols)⟩, row)

/-- The body of the `index_directory` walk loop: skip entries without a
recognized extension, index the rest, count the writes. -/
def index_step (root : List Char) (now : ℕ) (acc : CodebaseDb × ℕ) (e : FsEntry) :
    CodebaseDb × ℕ :=
  match detect_language e.path with
  | none => acc
  | some lang =>
    match index_file root now acc.1 e lang with
    | none => acc
    | some (db2, _) => (db2, acc.2 + 1)

/-- Embedding of `CodebaseIndex::index_directory`: walk the entries, index each file with
a recognized extension, and count the files newly written or updated. -/
def index_directory (root : List Char) (now : ℕ) (db : CodebaseDb)
    (walk : List FsEntry) : CodebaseDb × ℕ :=
  walk.foldl (index_step root now) (db, 0)

/-- The `total_files` component of `CodebaseIndex::get_stats`
(`SELECT COUNT(*) FROM files`). -/
def stats_total_files (db : CodebaseDb) : ℕ :=
  db.files.length

/-! ## Embedding of `src/storage/memory.rs` -/

inductive MemoryType where
  | conversation
  | codePattern
  | decision
  | preference
  | fact
deriving DecidableEq

/-- A row of the `memories` table of the classic store. -/
structure Memory where
  id : List Char
  content : List Char
  memory_type : MemoryType
  project : Option (List Char)
  tags : List (List Char)
  created_at : ℕ
  importance : ℚ
deriving DecidableEq

/-- Embedding of `MemoryStore::store`: SQL `INSERT OR REPLACE` keyed on `id`; every field,
including `importance`, is bound verbatim from the passed `Memory`. -/
def mem_store (rows : List Memory) (m : Memory) : List Memory :=
  if rows.any (fun r => r.id = m.id) then
    rows.map (fun r => if r.id = m.id then m else r)
  else
    rows ++ [m]

/-- Embedding of `MemoryStore::remember`: build a `Memory` from the arguments (the UUID
and the clock are passed in explicitly here) and store it. -/
def remember (id : List Char) (created : ℕ) (rows : List Memory)
    (content : List Char) (memory_type : MemoryType) (project : Option (List Char))
    (tags : List (List Char)) (importance : ℚ) : List Memory × Memory :=
  let m : Memory := ⟨id, content, memory_type, project, tags, created, importance⟩
  (mem_store rows m, m)

/-! ## Embedding of `src/rag.rs` -/

/-- Structure `RagConfig`; the two `f32` weights become exact rationals. -/
structure RagConfig where
  top_k : ℕ
  min_similarity : ℚ
  chunk_size : ℕ
  chunk_overlap : ℕ
  semantic_weight : ℚ
  enable_rerank : Bool
deriving DecidableEq

/-- Embedding of `RagConfig::default`. -/
def ragConfigDefault : RagConfig :=
  ⟨10, 3 / 10, 1000, 200, 7 / 10, true⟩

/-- Structure `CodeChunk`. -/
structure CodeChunk where
  file_path : List Char
  content : List Char
  start_line : ℕ
  end_line : ℕ
  language : List Char
  embedding : Option (List ℚ)
deriving DecidableEq

inductive MatchType where
  | semantic
  | keyword
  | hybrid
deriving DecidableEq

/-- Structure `SearchResult`. -/
structure SearchResult where
  chunk : CodeChunk
  score : ℚ
  match_type : MatchType
deriving DecidableEq

/-- The per-language boundary patterns of `find_code_boundaries`. -/
def boundaryPatterns (language : List Char) : List (List Char) :=
  if language = "rust".data then
    ["fn ".data, "impl ".data, "struct ".data, "enum ".data, "trait ".data, "mod ".data]
  else if language = "python".data then
    ["def ".data, "class ".data, "async def ".data]
  else if language = "javascript".data ∨ language = "typescript".data then
    ["function ".data, "class ".data, "const ".data, "export ".data]
  else if language = "java".data ∨ language = "kotlin".data then
    ["public ".data, "private ".data, "protected ".data, "class ".data, "interface ".data]
  else if language = "go".data then
    ["func ".data, "type ".data, "package ".data]
  else
    ["fn ".data, "function ".data, "def ".data, "class ".data]

/-- Embedding of `find_code_boundaries`: starts from `vec![0]`, records every later line
whose trimmed prefix matches a pattern, and finally pushes `lines.len()`. -/
def find_code_boundaries (lines : List (List Char)) (language : List Char) : List ℕ :=
  let patterns := boundaryPatterns language
  (0 :: (List.range lines.length).filter
      (fun i => patterns.any (fun p => startsWithStr (trimStr (lines.getD i [])) p) ∧ 0 < i))
    ++ [lines.length]

/-- Rust `lines[start..end].join(newline)`. -/
def joinLines (ls : List (List Char)) : List Char :=
  match ls with
  | [] => []
  | [l] => l
  | l :: rest => l ++ '\n' :: joinLines rest

/-- Consecutive pairs, as `slice::windows(2)`. -/
def pairWindows : List ℕ → List (ℕ × ℕ)
  | a :: b :: rest => (a, b) :: pairWindows (b :: rest)
  | _ => []

/-- The fixed-size chunking loop of `chunk_content` (the `else` branch).
The `while` loop is driven here by explicit fuel; for
`chunk_overlap < chunk_size` the fuel `lines.length + 1` is never
exhausted, matching the Rust loop, which diverges otherwise. -/
def fixedChunksGo (cfg : RagConfig) (lines : List (List Char)) (fp lang : List Char) :
    ℕ → ℕ → List CodeChunk
  | 0, _ => []
  | fuel + 1, start =>
    if start < lines.length then
      let e := min (start + cfg.chunk_size) lines.length
      let cc := joinLines ((lines.drop start).take (e - start))
      let rest :=
        if lines.length ≤ e then []
        else fixedChunksGo cfg lines fp lang fuel (e - cfg.chunk_overlap)
      if trimStr cc = [] then rest
      else ⟨fp, cc, start + 1, e, lang, none⟩ :: rest
    else []

/-- Embedding of `RagRetriever::chunk_content`. -/
def chunk_content (cfg : RagConfig) (content fp lang : List Char) : List CodeChunk :=
  let lines := rustLines content
  if lines = [] then []
  else
    let boundaries := find_code_boundaries lines lang
    if boundaries ≠ [] then
      (pairWindows boundaries).filterMap (fun se =>
        let start := se.1
        let e := min se.2 lines.length
        let cc := joinLines ((lines.drop start).take (e - start))
        if trimStr cc = [] then none
        else some ⟨fp, cc, start + 1, e, lang, none⟩)
    else
      fixedChunksGo cfg lines fp lang (lines.length + 1) 0

/-- Modelled from the spec (section 4.2): the fixed-size window chunking the
claim asserts for boundary-free content, namely windows of `chunk_size`
lines advancing by `chunk_size - chunk_overlap`, 1-based inclusive ranges,
empty-trimmed chunks dropped.  This is exactly the (unreachable) fixed-size
branch of `chunk_content`, run unconditionally. -/
def spec_fixed_window_chunks (cfg : RagConfig) (content fp lang : List Char) :
    List CodeChunk :=
  let lines := rustLines content
  fixedChunksGo cfg lines fp lang (lines.length + 1) 0

/-- The interior fold of `calculate_keyword_score`: count the terms that
occur, and sum the occurrence counts of the terms that occur. -/
def keyword_fold (content_lower : List Char) (keywords : List (List Char)) : ℕ × ℕ :=
  keywords.foldl
    (fun mt kw =>
      let kw_lower := lowerStr kw
      if containsSub content_lower kw_lower then
        (mt.1 + 1, mt.2 + countOcc kw_lower content_lower)
      else mt)
    (0, 0)

/-- Embedding of `calculate_keyword_score`.  The only non-rational ingredient of the
`f32` computation, `ln_1p` of the total occurrence count, is abstracted as
the parameter `lnOneP` (the theorems hold for every such function, in
particular for the natural logarithm the code evaluates). -/
def calculate_keyword_score (lnOneP : ℕ → ℚ) (content : List Char)
    (keywords : List (List Char)) : ℚ :=
  if keywords = [] then 0
  else
    let content_lower := lowerStr content
    let mt := keyword_fold content_lower keywords
    let match_ratio : ℚ := (mt.1 : ℚ) / (keywords.length : ℚ)
    let occurrence_boost : ℚ := lnOneP mt.2 / 10
    min (match_ratio + occurrence_boost) 1

/-- Modelled from the spec (section 4.2): `matches` is the count of terms
occurring at least once, case-insensitively. -/
def spec_matches (content : List Char) (keywords : List (List Char)) : ℕ :=
  (keywords.filter (fun kw => containsSub (lowerStr content) (lowerStr kw))).length

/-- Modelled from the spec (section 4.2): `total_occurrences` is the sum of
all per-term occurrence counts. -/
def spec_total_occurrences (content : List Char) (keywords : List (List Char)) : ℕ :=
  (keywords.map (fun kw => countOcc (lowerStr kw) (lowerStr content))).sum

/-- Modelled from the spec (section 4.2): the asserted score formula
`min(1, matches/|terms| + ln(1 + total_occurrences)/10)`. -/
def spec_keyword_score (lnOneP : ℕ → ℚ) (content : List Char)
    (keywords : List (List Char)) : ℚ :=
  min ((spec_matches content keywords : ℚ) / (keywords.length : ℚ)
      + lnOneP (spec_total_occurrences content keywords) / 10) 1

/-- The file-row surface `keyword_search` consumes (`get_all_files` plus the
`fs::read_to_string` outcome for each path). -/
structure RagFile where
  path : List Char
  readResult : Option (List Char)
  lines : ℕ
  embedding : Option (List ℚ)
deriving DecidableEq

/-- The per-extension table of `rag.rs`'s own `detect_language` (no
lowercasing, `rsplit` on the dot, default `unknown`). -/
def rag_detect_language (path : List Char) : List Char :=
  let ext := (path.reverse.takeWhile (· ≠ '.')).reverse
  if ext = "rs".data then "rust".data
  else if ext = "py".data then "python".data
  else if ext = "js".data then "javascript".data
  else if ext = "ts".data then "typescript".data
  else if ext = "jsx".data ∨ ext = "tsx".data then "react".data
  else if ext = "java".data then "java".data
  else if ext = "kt".data then "kotlin".data
  else if ext = "go".data then "go".data
  else if ext = "c".data ∨ ext = "h".data then "c".data
  else if ext = "cpp".data ∨ ext = "hpp".data ∨ ext = "cc".data then "cpp".data
  else if ext = "rb".data then "ruby".data
  else if ext = "php".data then "php".data
  else if ext = "swift".data then "swift".data
  else if ext = "scala".data then "scala".data
  else if ext = "cs".data then "csharp".data
  else "unknown".data

/-- Embedding of `RagRetriever::keyword_search`: skip unreadable files, score each file,
keep positive scores, sort descending by score, truncate to `2 * top_k`. -/
def keyword_search (lnOneP : ℕ → ℚ) (cfg : RagConfig) (files : List RagFile)
    (query : List Char) : List SearchResult :=
  let keywords := splitWs query
  let results := files.filterMap (fun f =>
    match f.readResult with
    | none => none
    | some content =>
      let score := calculate_keyword_score lnOneP content keywords
      if 0 < score then
        some ⟨⟨f.path, content, 1, f.lines, rag_detect_language f.path, f.embedding⟩,
          score, MatchType.keyword⟩
      else none)
  (results.mergeSort (fun a b => decide (b.score ≤ a.score))).take (cfg.top_k * 2)

/-! ## The replicated memory document (C6 data model)

Modelled from the spec: the replicated document and its `merge` live in the
external Automerge crate, which is not part of this repository
(`crdt_memory.rs` only delegates to it).  Following section 9 of the spec,
the document is embedded as a set of operations — a list-of-operations log
with id-keyed last-writer-wins (by a (wall-clock, replica-id) Lamport
tuple) for the scalar `importance`, append-only tag lists (tags union), and
delete tombstones — and the merge of two snapshots is the union of their
operation sets. -/

inductive MemOp where
  | addMem (id content kind ts : List Char) (project : Option (List Char))
  | setImportance (id : List Char) (wallClock replica : ℕ) (value : ℚ)
  | addTag (id : List Char) (tag : List Char)
  | deleteMem (id : List Char)
deriving DecidableEq

/-- A byte snapshot of the replicated document, identified with the set of
operations it carries. -/
abbrev CrdtDoc := Finset MemOp

/-- Modelled from the spec: `CrdtMemoryStore::merge` loads the other
snapshot and merges it into the local document; on operation sets this is
set union. -/
def crdt_merge (a b : CrdtDoc) : CrdtDoc :=
  a ∪ b

def isAddFor (i : List Char) : MemOp → Bool
  | .addMem j _ _ _ _ => j = i
  | _ => false

def isAddAny : MemOp → Bool
  | .addMem _ _ _ _ _ => true
  | _ => false

def opId : MemOp → List Char
  | .addMem j _ _ _ _ => j
  | .setImportance j _ _ _ => j
  | .addTag j _ => j
  | .deleteMem j => j

def addPayload : MemOp → List Char × List Char × List Char × Option (List Char)
  | .addMem _ c k t p => (c, k, t, p)
  | _ => ([], [], [], none)

def isTagFor (i : List Char) : MemOp → Bool
  | .addTag j _ => j = i
  | _ => false

def tagPayload : MemOp → List Char
  | .addTag _ t => t
  | _ => []

def isImpFor (i : List Char) : MemOp → Bool
  | .setImportance j _ _ _ => j = i
  | _ => false

def impStampOf : MemOp → Lex (ℕ × Lex (ℕ × ℚ))
  | .setImportance _ t r v => toLex (t, toLex (r, v))
  | _ => toLex (0, toLex (0, 0))

/-- The creation payloads recorded for a memory id. -/
def addsFor (d : CrdtDoc) (i : List Char) :
    Finset (List Char × List Char × List Char × Option (List Char)) :=
  (d.filter (fun o => isAddFor i o)).image addPayload

/-- The union of tags added for a memory id. -/
def tagsFor (d : CrdtDoc) (i : List Char) : Finset (List Char) :=
  (d.filter (fun o => isTagFor i o)).image tagPayload

/-- The Lamport-stamped importance writes for a memory id. -/
def impStamps (d : CrdtDoc) (i : List Char) : Finset (Lex (ℕ × Lex (ℕ × ℚ))) :=
  (d.filter (fun o => isImpFor i o)).image impStampOf

/-- Last-writer-wins importance: the value carried by the greatest Lamport
stamp, defaulting to the creation value 1/2. -/
def importanceOf (d : CrdtDoc) (i : List Char) : ℚ :=
  (ofLex (ofLex ((impStamps d i).max.unbot' (toLex (0, toLex (0, (1 : ℚ) / 2))))).2).2

/-- The full per-entry state of a memory id in a document. -/
structure MemEntryView where
  adds : Finset (List Char × List Char × List Char × Option (List Char))
  deleted : Bool
  importance : ℚ
  tags : Finset (List Char)
deriving DecidableEq

/-- The state a reader observes for a given memory id. -/
def memView (d : CrdtDoc) (i : List Char) : MemEntryView :=
  ⟨addsFor d i, decide (MemOp.deleteMem i ∈ d), importanceOf d i, tagsFor d i⟩

/-- The set of memory ids visible in a document: inserted and not
tombstoned. -/
def memIds (d : CrdtDoc) : Finset (List Char) :=
  ((d.filter (fun o => isAddAny o)).image opId).filter
    (fun i => MemOp.deleteMem i ∉ d)

/-! ## Embedding of `src/sync.rs` -/

/-- ASCII bytes of a literal, for the 4-byte commands and acks. -/
def asciiBytes (s : String) : List ℕ :=
  s.data.map Char.toNat

/-- Rust `Path::with_extension`: replace the extension of the final path
component (or append one when the file name has none). -/
def rustWithExtension (path ext : List Char) : List Char :=
  match rustExtension path with
  | none => path ++ '.' :: ext
  | some e => path.take (path.length - (e.length + 1)) ++ '.' :: ext

/-- The on-disk state seen by the sync server: a map from path to bytes. -/
abbrev SyncFs : Type := List (List Char × List ℕ)

/-- Full-file write, as `std::fs::write`. -/
def fsWrite (fs : SyncFs) (p : List Char) (d : List ℕ) : SyncFs :=
  if fs.any (fun e => e.1 = p) then
    fs.map (fun e => if e.1 = p then (p, d) else e)
  else
    fs ++ [(p, d)]

/-- Read of a whole file, as `std::fs::read` (`none` when absent). -/
def fsRead (fs : SyncFs) (p : List Char) : Option (List ℕ) :=
  (fs.find? (fun e => decide (e.1 = p))).map (fun e => e.2)

/-- Embedding of `P2PSync::sync_file`: the primary document path. -/
def sync_file (dataDir : List Char) : List Char :=
  dataDir ++ "/memories.automerge".data

/-- Embedding of `handle_sync_connection`: read the 4-byte command and dispatch.  A short
read or an unknown command terminates the connection with an error
(`none`); otherwise the result is the updated filesystem and the bytes
written back to the peer. -/
def handle_sync_connection (syncFile : List Char) (fs : SyncFs) (input : List ℕ) :
    Option (SyncFs × List ℕ) :=
  if input.length < 4 then none
  else
    let cmd := input.take 4
    let rest := input.drop 4
    if cmd = asciiBytes "PUSH" then
      if rest.length < 8 then none
      else
        let n := beDecode (rest.take 8)
        let body := rest.drop 8
        if body.length < n then none
        else
          let data := body.take n
          let temp_file := rustWithExtension syncFile "incoming".data
          some (fsWrite fs temp_file data, asciiBytes "OK  ")
    else if cmd = asciiBytes "PULL" then
      let d := (fsRead fs syncFile).getD []
      some (fs, be64 d.length ++ d)
    else if cmd = asciiBytes "SYNC" then
      if rest.length < 8 then none
      else
        let n := beDecode (rest.take 8)
        let body := rest.drop 8
        if body.length < n then none
        else
          let local_data := (fsRead fs syncFile).getD []
          some (fs, be64 local_data.length ++ local_data)
    else none

/-! ## Embedding of `src/daemon.rs` -/

/-- Structure `DaemonRequest`. -/
structure DaemonRequest where
  command : List Char
  args : Option (List Char)
deriving DecidableEq

/-- Structure `DaemonResponse`. -/
structure DaemonResponse where
  success : Bool
  result : Option (List Char)
  error : Option (List Char)
deriving DecidableEq

/-- Embedding of `process_request`: parse the line as JSON (the serde parser is the
`parse` parameter), assemble the orchestrator input, and shape the
response.  The orchestrator round-trip through the owner channel is the
total function `orch` (the owner task is alive). -/
def process_request (parse : List Char → Except (List Char) DaemonRequest)
    (orch : List Char → Except (List Char) (List Char)) (line : List Char) :
    DaemonResponse :=
  match parse line with
  | .error e => ⟨false, none, some ("Invalid request: ".data ++ e)⟩
  | .ok req =>
    let input :=
      match req.args with
      | some a => req.command ++ ' ' :: a
      | none => req.command
    match orch input with
    | .ok r => ⟨true, some r, none⟩
    | .error e => ⟨false, none, some e⟩

/-- The read loop of `handle_unix_connection` / `handle_tcp_connection`:
one response per received line, until EOF ends the list. -/
def handle_connection (parse : List Char → Except (List Char) DaemonRequest)
    (orch : List Char → Except (List Char) (List Char))
    (lines : List (List Char)) : List DaemonResponse :=
  lines.map (process_request parse orch)

/-- The accept loop of `start_tcp` / `start_unix`: every accepted
connection is handed to its own `handle_connection`. -/
def accept_loop (parse : List Char → Except (List Char) DaemonRequest)
    (orch : List Char → Except (List Char) (List Char))
    (conns : List (List (List Char))) : List (List DaemonResponse) :=
  conns.map (handle_connection parse orch)

/-! ## Embedding of `src/agents/orchestrator.rs` (command dispatch) -/

/-- The arm of the `handle_command` match an input reaches. -/
inductive CmdDispatch where
  | search
  | symbol
  | ask
  | explain
  | generate
  | review
  | test
  | fix
  | refactor
  | readFile
  | summarize
  | embed
  | stats
  | memory
  | syncExport
  | syncImport
  | syncStatus
  | syncPull
  | syncPush
  | syncLive
  | clear
  | help
  | unknown (cmd : List Char)
deriving DecidableEq

/-- The `match cmd` of `Orchestrator::handle_command`, pattern for
pattern. -/
def match_command (cmd : List Char) : CmdDispatch :=
  if cmd = "/search".data ∨ cmd = "/s".data then .search
  else if cmd = "/symbol".data ∨ cmd = "/sym".data then .symbol
  else if cmd = "/ask".data ∨ cmd = "/q".data then .ask
  else if cmd = "/explain".data ∨ cmd = "/e".data then .explain
  else if cmd = "/generate".data ∨ cmd = "/gen".data ∨ cmd = "/g".data then .generate
  else if cmd = "/review".data ∨ cmd = "/r".data then .review
  else if cmd = "/test".data ∨ cmd = "/t".data then .test
  else if cmd = "/fix".data then .fix
  else if cmd = "/refactor".data ∨ cmd = "/ref".data then .refactor
  else if cmd = "/read".data ∨ cmd = "/cat".data then .readFile
  else if cmd = "/summarize".data ∨ cmd = "/sum".data then .summarize
  else if cmd = "/embed".data then .embed
  else if cmd = "/stats".data then .stats
  else if cmd = "/memory".data ∨ cmd = "/mem".data then .memory
  else if cmd = "/sync-export".data then .syncExport
  else if cmd = "/sync-import".data then .syncImport
  else if cmd = "/sync-status".data then .syncStatus
  else if cmd = "/sync-pull".data then .syncPull
  else if cmd = "/sync-push".data then .syncPush
  else if cmd = "/sync-live".data then .syncLive
  else if cmd = "/clear".data then .clear
  else if cmd = "/help".data ∨ cmd = "/h".data then .help
  else .unknown cmd

/-- Embedding of `Orchestrator::handle_command`: split the input once on a space, trim
the argument tail, and dispatch on the command token. -/
def handle_command (input : List Char) : CmdDispatch × List Char :=
  let parts := splitn2 input
  (match_command parts.1, (parts.2.map trimStr).getD [])

/-- The reply of the fall-through arm of `handle_command`. -/
def unknown_reply (cmd : List Char) : List Char :=
  "Unknown command: ".data ++ cmd ++ ". Type /help for available commands.".data

inductive ProcessedCommand where
  | slash (d : CmdDispatch) (args : List Char)
  | chat (text : List Char)
deriving DecidableEq

/-- Embedding of `Orchestrator::process_command`: trim, dispatch a leading-slash input to
`handle_command`, otherwise default to chat. -/
def process_command (input : List Char) : ProcessedCommand :=
  let t := trimStr input
  if startsWithStr t "/".data then
    let hc := handle_command t
    .slash hc.1 hc.2
  else
    .chat t

/-- Embedding of the `watcher.rs` `process_changes` output: the command string emitted to the
orchestrator channel for a project root. -/
def watcher_index_command (root : List Char) : List Char :=
  "/index ".data ++ root

/-- A concrete stand-in for the serde JSON parser: accepts one line,
rejects every other. -/
def parse9 : List Char → Except (List Char) DaemonRequest := fun l =>
  if l = "ok".data then Except.ok ⟨"/stats".data, none⟩
  else Except.error "expected value".data

/-- A concrete orchestrator reply function. -/
def orch9 : List Char → Except (List Char) (List Char) := fun _ =>
  Except.ok "pong".data

/-- The stored hash for the path of an entry already matches the hash of its
current (possibly defaulted) content. -/
def goodFor (db : CodebaseDb) (e : FsEntry) : Prop :=
  ((db.files.find? (fun r => decide (r.path = e.path))).map (fun r => r.hash))
    = some (compute_hash (e.readResult.getD []))

/-- An entry the walk can no longer touch: unrecognized extension or stored
hash already current. -/
def okEntry (db : CodebaseDb) (e : FsEntry) : Prop :=
  detect_language e.path = none ∨ goodFor db e

/-- Every stored hash in the files table is the hash of the stored content. -/
def hash_ok (db : CodebaseDb) : Prop :=
  ∀ r ∈ db.files, r.hash = compute_hash r.content

/-! ## Claim C1 -/

/-- C1: the claim says the orchestrator dispatcher recognizes the index
command the watcher emits; in fact the `handle_command` match has no arm
for it, so processing the watcher string for the path `/tmp/project`
lands in the fall-through arm, whose reply is the unknown-command message
(the code elsewhere even instructs the user to run this very command). -/
theorem c1_index_command_falls_through :
    process_command (watcher_index_command "/tmp/project".data)
      = ProcessedCommand.slash (CmdDispatch.unknown "/index".data) "/tmp/project".data
    ∧ unknown_reply "/index".data
      = "Unknown command: /index. Type /help for available commands.".data := by
  constructor
  · decide
  · decide

/-! ## Claim C2 -/

/-- C2: on the operation-set model of the replicated document, merging in
either direction leaves both replicas with the same per-entry state and
the same set of memories by id; merge is associative and commutative, and
a self-merge leaves the memory set (and every per-entry state)
unchanged. -/
theorem c2_crdt_merge_properties (a b c : CrdtDoc) :
    (∀ i, memView (crdt_merge a b) i = memView (crdt_merge b a) i)
    ∧ memIds (crdt_merge a b) = memIds (crdt_merge b a)
    ∧ crdt_merge (crdt_merge a b) c = crdt_merge a (crdt_merge b c)
    ∧ crdt_merge a b = crdt_merge b a
    ∧ memIds (crdt_merge a a) = memIds a
    ∧ (∀ i, memView (crdt_merge a a) i = memView a i) := by
  refine ⟨fun i => ?_, ?_, ?_, ?_, ?_, fun i => ?_⟩
  · rw [crdt_merge, crdt_merge, Finset.union_comm]
  · rw [crdt_merge, crdt_merge, Finset.union_comm]
  · rw [crdt_merge, crdt_merge, crdt_merge, crdt_merge, Finset.union_assoc]
  · rw [crdt_merge, crdt_merge, Finset.union_comm]
  · rw [crdt_merge, Finset.union_idempotent]
  · rw [crdt_merge, Finset.union_idempotent]

/-! ## Claim C4 -/

/-- C4 counterexample: `remember` called with importance 2 stores the row
with importance 2, which does not lie in the unit interval — nothing
clamps at write. -/
theorem c4_counterexample :
    ((remember "id0".data 0 [] "x".data MemoryType.fact none [] 2).1.map
        (fun m => m.importance)) = [2]
    ∧ ¬ ((2 : ℚ) ≤ 1) := by
  refine ⟨rfl, by norm_num⟩

/-- C4 amended: a classic-memory write stores the importance exactly as
passed — `remember` builds the row with the given value and `store` binds
it verbatim — so the stored score lies in the unit interval precisely when
the caller passes a value there. -/
theorem c4_importance_stored_verbatim (id content : List Char) (created : ℕ)
    (rows : List Memory) (mt : MemoryType) (project : Option (List Char))
    (tags : List (List Char)) (imp : ℚ) (h0 : 0 ≤ imp) (h1 : imp ≤ 1) :
    (remember id created rows content mt project tags imp).2.importance = imp
    ∧ (∀ m ∈ (remember id created rows content mt project tags imp).1,
        m.id = id → m.importance = imp)
    ∧ 0 ≤ (remember id created rows content mt project tags imp).2.importance
    ∧ (remember id created rows content mt project tags imp).2.importance ≤ 1 := by
  refine ⟨rfl, ?_, h0, h1⟩
  intro m hm hid
  simp only [remember, mem_store] at hm
  split at hm
  · obtain ⟨x, hx, rfl⟩ := List.mem_map.mp hm
    by_cases hxe : x.id = id
    · rw [if_pos hxe]
    · rw [if_neg hxe] at hid ⊢
      exact absurd hid hxe
  · rename_i hany
    rcases List.mem_append.mp hm with hmem | hmem
    · rw [List.any_eq_true] at hany
      exact absurd ⟨m, hmem, by simp [hid]⟩ hany
    · simp only [List.mem_singleton] at hmem
      subst hmem
      rfl

/-- C4 witness: the amended theorem applied at importance 1. -/
theorem c4_importance_stored_verbatim_witness :
    (0 : ℚ) ≤ 1 ∧ (1 : ℚ) ≤ 1
    ∧ ((remember "id0".data 0 [] "x".data MemoryType.fact none [] 1).2.importance = 1
      ∧ (∀ m ∈ (remember "id0".data 0 [] "x".data MemoryType.fact none [] 1).1,
          m.id = "id0".data → m.importance = 1)
      ∧ 0 ≤ (remember "id0".data 0 [] "x".data MemoryType.fact none [] 1).2.importance
      ∧ (remember "id0".data 0 [] "x".data MemoryType.fact none [] 1).2.importance ≤ 1) :=
  ⟨zero_le_one, le_refl 1,
    c4_importance_stored_verbatim "id0".data "x".data 0 [] MemoryType.fact none [] 1
      zero_le_one (le_refl 1)⟩

/-! ## Claim C9 -/

/-- C9 counterexample: a connection sending a malformed line followed by a
well-formed one receives two responses — the request after the malformed
line is still processed, so the connection was not closed at the protocol
error; it got an error response instead. -/
theorem c9_counterexample :
    handle_connection parse9 orch9 ["bad".data, "ok".data]
      = [⟨false, none, some "Invalid request: expected value".data⟩,
         ⟨true, some "pong".data, none⟩]
    ∧ (handle_connection parse9 orch9 ["bad".data, "ok".data]).length ≠ 1 := by
  constructor
  · decide
  · decide

/-- C9 amended: on the Unix-socket and TCP line protocols a line that fails
JSON parsing produces a response with success false and an
Invalid-request error, and the read loop continues: every line before and
after it is answered in order and the response count equals the line
count; the connection ends only at EOF, and the accept loop hands every
accepted connection to its own handler regardless. -/
theorem c9_malformed_line_keeps_connection
    (parse : List Char → Except (List Char) DaemonRequest)
    (orch : List Char → Except (List Char) (List Char))
    (pre post : List (List Char)) (bad e : List Char)
    (conns : List (List (List Char)))
    (hbad : parse bad = Except.error e) :
    handle_connection parse orch (pre ++ bad :: post)
      = handle_connection parse orch pre
        ++ (⟨false, none, some ("Invalid request: ".data ++ e)⟩ : DaemonResponse)
          :: handle_connection parse orch post
    ∧ (handle_connection parse orch (pre ++ bad :: post)).length
      = pre.length + 1 + post.length
    ∧ (accept_loop parse orch conns).length = conns.length := by
  refine ⟨?_, ?_, ?_⟩
  · simp only [handle_connection, List.map_append, List.map_cons, process_request, hbad]
  · simp only [handle_connection, List.length_map, List.length_append, List.length_cons]
    omega
  · simp only [accept_loop, List.length_map]

/-- C9 witness: the amended theorem applied to a concrete malformed line
between two well-formed ones. -/
theorem c9_malformed_line_keeps_connection_witness :
    parse9 "bad".data = Except.error "expected value".data
    ∧ (handle_connection parse9 orch9 (["ok".data] ++ "bad".data :: ["ok".data])
        = handle_connection parse9 orch9 ["ok".data]
          ++ (⟨false, none, some ("Invalid request: ".data ++ "expected value".data)⟩
              : DaemonResponse)
            :: handle_connection parse9 orch9 ["ok".data]
      ∧ (handle_connection parse9 orch9 (["ok".data] ++ "bad".data :: ["ok".data])).length
        = ([("ok".data)] : List (List Char)).length + 1 + ([("ok".data)] : List (List Char)).length
      ∧ (accept_loop parse9 orch9 [["ok".data]]).length = ([["ok".data]] : List (List (List Char))).length) :=
  ⟨rfl,
    c9_malformed_line_keeps_connection parse9 orch9 ["ok".data] ["ok".data]
      "bad".data "expected value".data [["ok".data]] rfl⟩

/-! ## Claim C8 -/

/-- Replacing one keyed entry does not change lookups under another key. -/
theorem find?_map_keyed (p q : List Char) (d : List ℕ) (h : q ≠ p) (fs : SyncFs) :
    List.find? (fun e => decide (e.1 = q)) (fs.map (fun e => if e.1 = p then (p, d) else e))
      = List.find? (fun e => decide (e.1 = q)) fs := by
  induction fs with
  | nil => rfl
  | cons e rest ih =>
    simp only [List.map_cons, List.find?_cons]
    by_cases hq : e.1 = q
    · have hep : ¬ e.1 = p := fun hp => h (hp ▸ hq ▸ rfl)
      rw [if_neg hep]
      simp [hq]
    · by_cases hep : e.1 = p
      · rw [if_pos hep]
        have h1 : (decide ((p, d).1 = q)) = false := by
          simp only [decide_eq_false_iff_not]
          exact fun hpq => h hpq.symm
        have h2 : (decide (e.1 = q)) = false := by
          simp only [decide_eq_false_iff_not]
          exact hq
        rw [h1, h2]
        exact ih
      · rw [if_neg hep]
        have h2 : (decide (e.1 = q)) = false := by
          simp only [decide_eq_false_iff_not]
          exact hq
        rw [h2]
        exact ih

/-- A full-file write to one path leaves reads of any other path
unchanged. -/
theorem fsRead_fsWrite_ne (fs : SyncFs) (p q : List Char) (d : List ℕ) (h : q ≠ p) :
    fsRead (fsWrite fs p d) q = fsRead fs q := by
  unfold fsRead fsWrite
  split
  · rw [find?_map_keyed p q d h fs]
  · rw [List.find?_append]
    have hpd : (decide (((p, d) : List Char × List ℕ).1 = q)) = false := by
      simp only [decide_eq_false_iff_not]
      exact fun hpq => h hpq.symm
    have : List.find? (fun e => decide (e.1 = q)) [(p, d)] = none := by
      simp [List.find?_cons, hpd]
    rw [this, Option.or_none]

/-- The extension Rust sees on the primary document path is `automerge`,
whatever the data directory. -/
theorem sync_file_extension (d : List Char) :
    rustExtension (sync_file d) = some "automerge".data := by
  unfold rustExtension sync_file
  rw [List.reverse_append, List.takeWhile_append, if_neg (by decide)]
  decide

/-- The write path of the PUSH handler: Rust `with_extension` replaces the
automerge extension of the primary document path, yielding
`memories.incoming` next to it. -/
theorem push_temp_file_path (d : List Char) :
    rustWithExtension (sync_file d) "incoming".data = d ++ "/memories.incoming".data := by
  unfold rustWithExtension
  rw [sync_file_extension]
  show List.take ((sync_file d).length - ("automerge".data.length + 1)) (sync_file d)
      ++ '.' :: "incoming".data = d ++ "/memories.incoming".data
  rw [sync_file, List.length_append]
  rw [show ("/memories.automerge".data.length = 19) from by decide,
      show ("automerge".data.length = 9) from by decide]
  rw [show (d.length + 19 - (9 + 1) = d.length + 9) from by omega]
  rw [List.take_append]
  rw [show (List.take 9 "/memories.automerge".data = "/memories".data) from by decide]
  rw [List.append_assoc]
  rw [show ("/memories".data ++ '.' :: "incoming".data = "/memories.incoming".data) from by decide]

/-- C8 counterexample: a well-formed PUSH frame against a data directory
holding the primary document succeeds with the OK ack, but the received
blob lands at `memories.incoming` — the path `memories.automerge.incoming`
named by the claim stays absent (and the primary document is unchanged). -/
theorem c8_counterexample :
    (handle_sync_connection (sync_file "d".data)
        [("d/memories.automerge".data, [1, 2, 3])]
        (asciiBytes "PUSH" ++ [0, 0, 0, 0, 0, 0, 0, 2] ++ [9, 9])).map
      (fun r => (fsRead r.1 "d/memories.automerge.incoming".data,
                 fsRead r.1 "d/memories.incoming".data,
                 fsRead r.1 "d/memories.automerge".data,
                 r.2))
    = some (none, some [9, 9], some [1, 2, 3], asciiBytes "OK  ") := by
  decide

/-- C8 amended: a well-formed PUSH frame (4-byte command, 8-byte big-endian
length, blob) makes the server write the blob to
`<data>/memories.incoming` — `with_extension("incoming")` replaces the
`automerge` extension rather than appending — reply with the 4-byte ack
`OK  `, and leave the primary `<data>/memories.automerge` document
unchanged. -/
theorem c8_push_writes_sidecar (dataDir : List Char) (fs : SyncFs)
    (lenBytes blob : List ℕ)
    (h8 : lenBytes.length = 8) (hlen : beDecode lenBytes = blob.length) :
    handle_sync_connection (sync_file dataDir) fs (asciiBytes "PUSH" ++ (lenBytes ++ blob))
      = some (fsWrite fs (dataDir ++ "/memories.incoming".data) blob, asciiBytes "OK  ")
    ∧ fsRead (fsWrite fs (dataDir ++ "/memories.incoming".data) blob) (sync_file dataDir)
      = fsRead fs (sync_file dataDir) := by
  constructor
  · simp only [handle_sync_connection]
    rw [if_neg (by simp [List.length_append]; omega)]
    rw [List.take_left' (by decide), List.drop_left' (by decide)]
    rw [if_pos rfl]
    rw [if_neg (by simp only [List.length_append, h8]; omega)]
    rw [List.take_left' h8, List.drop_left' h8, hlen]
    rw [if_neg (by omega)]
    rw [List.take_length]
    rw [push_temp_file_path]
  · refine fsRead_fsWrite_ne fs (dataDir ++ "/memories.incoming".data) (sync_file dataDir)
      blob (fun h => ?_)
    rw [sync_file] at h
    have hlg := congrArg List.length h
    rw [List.length_append, List.length_append,
        show ("/memories.automerge".data.length = 19) from by decide,
        show ("/memories.incoming".data.length = 18) from by decide] at hlg
    omega

/-- C8 witness: the amended theorem applied to a two-byte blob pushed at a
store holding a three-byte primary document. -/
theorem c8_push_writes_sidecar_witness :
    ([0, 0, 0, 0, 0, 0, 0, 2] : List ℕ).length = 8
    ∧ beDecode [0, 0, 0, 0, 0, 0, 0, 2] = ([9, 9] : List ℕ).length
    ∧ (handle_sync_connection (sync_file "d".data)
          [("d/memories.automerge".data, [1, 2, 3])]
          (asciiBytes "PUSH" ++ ([0, 0, 0, 0, 0, 0, 0, 2] ++ [9, 9]))
        = some (fsWrite [("d/memories.automerge".data, [1, 2, 3])]
            ("d".data ++ "/memories.incoming".data) [9, 9], asciiBytes "OK  ")
      ∧ fsRead (fsWrite [("d/memories.automerge".data, [1, 2, 3])]
            ("d".data ++ "/memories.incoming".data) [9, 9]) (sync_file "d".data)
        = fsRead [("d/memories.automerge".data, [1, 2, 3])] (sync_file "d".data)) :=
  ⟨by decide, by decide,
    c8_push_writes_sidecar "d".data [("d/memories.automerge".data, [1, 2, 3])]
      [0, 0, 0, 0, 0, 0, 0, 2] [9, 9] (by decide) (by decide)⟩

/-! ## Claim C5 -/

/-- C5 counterexample: indexing a single unreadable `a.rs` (its read
fails) returns count 1 and writes a row for that path with empty content —
the file is neither skipped nor uncounted, because `unwrap_or_default`
turns the failed read into empty content. -/
theorem c5_counterexample :
    (index_directory [] 0 ⟨[], []⟩ [⟨"a.rs".data, none⟩]).2 = 1
    ∧ ((index_directory [] 0 ⟨[], []⟩ [⟨"a.rs".data, none⟩]).1.files.map
        (fun r => (r.path, r.content))) = [("a.rs".data, [])] := by
  constructor
  · decide
  · decide

/-- C5 amended: an unreadable file with a recognized extension is not
skipped: `fs::read_to_string(..).unwrap_or_default()` yields empty
content, so (when the path has no row yet) a row with empty content and
the hash of the empty string is written for it and the file is counted in
the returned count. -/
theorem c5_unreadable_file_indexed_empty (root : List Char) (now : ℕ)
    (db : CodebaseDb) (e : FsEntry) (lang : List Char)
    (hunread : e.readResult = none)
    (hlang : detect_language e.path = some lang)
    (hno : db.files.find? (fun r => r.path = e.path) = none) :
    ((index_file root now db e lang).map (fun r => (r.2.path, r.2.content, r.2.hash)))
      = some (e.path, [], compute_hash [])
    ∧ (index_directory root now db [e]).2 = 1 := by
  have hsome : index_file root now db e lang
      = some (⟨insertOrReplaceFile db.files
          ⟨e.path, if root.isPrefixOf e.path then e.path.drop root.length else e.path,
            lang, (utf8Encode []).length, compute_hash [], [], none,
            extract_symbols [] lang, now⟩,
          ftsUpsert db.fts (e.path, [], extract_symbols [] lang)⟩,
        ⟨e.path, if root.isPrefixOf e.path then e.path.drop root.length else e.path,
          lang, (utf8Encode []).length, compute_hash [], [], none,
          extract_symbols [] lang, now⟩) := by
    simp only [index_file, hunread, Option.getD_none, hno, Option.map_none']
    rw [if_neg (by simp)]
  constructor
  · rw [hsome]
    rfl
  · unfold index_directory
    simp only [List.foldl_cons, List.foldl_nil, index_step, hlang, hsome]

/-- C5 witness: the amended theorem applied to an unreadable `a.rs` over an
empty database. -/
theorem c5_unreadable_file_indexed_empty_witness :
    (⟨"a.rs".data, none⟩ : FsEntry).readResult = none
    ∧ detect_language ("a.rs".data) = some "rust".data
    ∧ (⟨[], []⟩ : CodebaseDb).files.find?
        (fun r => r.path = (⟨"a.rs".data, none⟩ : FsEntry).path) = none
    ∧ (((index_file [] 0 ⟨[], []⟩ ⟨"a.rs".data, none⟩ "rust".data).map
          (fun r => (r.2.path, r.2.content, r.2.hash)))
        = some ((⟨"a.rs".data, none⟩ : FsEntry).path, [], compute_hash [])
      ∧ (index_directory [] 0 ⟨[], []⟩ [⟨"a.rs".data, none⟩]).2 = 1) :=
  ⟨rfl, by decide, rfl,
    c5_unreadable_file_indexed_empty [] 0 ⟨[], []⟩ ⟨"a.rs".data, none⟩ "rust".data
      rfl (by decide) rfl⟩

/-! ## Claim C6 -/

/-- C6 counterexample: with chunk size 2 and overlap 1, content of three
lines none of which starts with a declaration keyword is returned by
`chunk_content` as one whole-file chunk (lines 1..3), not as the fixed
windows (1..2), (2..3) the claim asserts — the boundary list always holds
the start and end sentinels, so the fixed-size branch is unreachable. -/
theorem c6_counterexample :
    chunk_content ⟨10, 3 / 10, 2, 1, 7 / 10, true⟩ "a\nb\nc".data "f.txt".data "text".data
      ≠ spec_fixed_window_chunks ⟨10, 3 / 10, 2, 1, 7 / 10, true⟩
          "a\nb\nc".data "f.txt".data "text".data
    ∧ chunk_content ⟨10, 3 / 10, 2, 1, 7 / 10, true⟩ "a\nb\nc".data "f.txt".data "text".data
      = [⟨"f.txt".data, "a\nb\nc".data, 1, 3, "text".data, none⟩]
    ∧ spec_fixed_window_chunks ⟨10, 3 / 10, 2, 1, 7 / 10, true⟩
          "a\nb\nc".data "f.txt".data "text".data
      = [⟨"f.txt".data, "a\nb".data, 1, 2, "text".data, none⟩,
         ⟨"f.txt".data, "b\nc".data, 2, 3, "text".data, none⟩]
    ∧ (∀ line ∈ rustLines "a\nb\nc".data, ∀ p ∈ boundaryPatterns "text".data,
        startsWithStr (trimStr line) p = false) := by
  refine ⟨by decide, by decide, by decide, by decide⟩

/-- C6 amended: for content in which no line (trimmed) starts with one of
the declaration keywords of the language, `chunk_content` returns a single
chunk spanning the whole file — 1-based lines 1 through the line count —
because `find_code_boundaries` always returns at least the start and end
sentinels and the fixed-size window branch is therefore dead code (the
whole chunk is dropped only when the content trims to nothing). -/
theorem c6_no_boundary_whole_file_chunk (cfg : RagConfig) (content fp lang : List Char)
    (hne : rustLines content ≠ [])
    (hnb : ∀ line ∈ rustLines content, ∀ p ∈ boundaryPatterns lang,
        startsWithStr (trimStr line) p = false)
    (hnonblank : trimStr (joinLines (rustLines content)) ≠ []) :
    chunk_content cfg content fp lang
      = [⟨fp, joinLines (rustLines content), 1, (rustLines content).length, lang, none⟩] := by
  have hfilter : (List.range (rustLines content).length).filter
      (fun i => decide
        ((boundaryPatterns lang).any
            (fun p => startsWithStr (trimStr ((rustLines content).getD i [])) p) = true
          ∧ 0 < i)) = [] := by
    rw [List.filter_eq_nil_iff]
    intro i hi
    rw [List.mem_range] at hi
    simp only [decide_eq_true_eq, not_and]
    intro hany
    exfalso
    rw [List.any_eq_true] at hany
    obtain ⟨p, hp, hsw⟩ := hany
    have hline : (rustLines content).getD i [] ∈ rustLines content := by
      rw [List.getD_eq_getElem _ _ hi]
      exact List.getElem_mem hi
    rw [hnb _ hline p hp] at hsw
    exact Bool.false_ne_true hsw
  have hb : find_code_boundaries (rustLines content) lang
      = [0, (rustLines content).length] := by
    simp only [find_code_boundaries]
    rw [hfilter]
    rfl
  unfold chunk_content
  rw [if_neg hne, hb, if_pos (by simp)]
  simp only [pairWindows, List.filterMap_cons, List.filterMap_nil]
  rw [Nat.min_self, List.drop_zero, Nat.sub_zero, List.take_length]
  rw [if_neg hnonblank]

/-- C6 witness: the amended theorem applied to boundary-free two-line
content under the default configuration. -/
theorem c6_no_boundary_whole_file_chunk_witness :
    rustLines "x\ny".data ≠ []
    ∧ (∀ line ∈ rustLines "x\ny".data, ∀ p ∈ boundaryPatterns "text".data,
        startsWithStr (trimStr line) p = false)
    ∧ trimStr (joinLines (rustLines "x\ny".data)) ≠ []
    ∧ chunk_content ragConfigDefault "x\ny".data "f.txt".data "text".data
      = [⟨"f.txt".data, joinLines (rustLines "x\ny".data), 1,
          (rustLines "x\ny".data).length, "text".data, none⟩] :=
  ⟨by decide, by decide, by decide,
    c6_no_boundary_whole_file_chunk ragConfigDefault "x\ny".data "f.txt".data "text".data
      (by decide) (by decide) (by decide)⟩

/-! ## Lookup lemmas for the files table -/

/-- In the replace branch, looking up the written path finds the new row. -/
theorem find?_replace_self (rows : List IndexedFile) (row : IndexedFile)
    (hany : rows.any (fun r => r.path = row.path) = true) :
    (rows.map (fun r => if r.path = row.path then row else r)).find?
      (fun r => decide (r.path = row.path)) = some row := by
  induction rows with
  | nil => simp at hany
  | cons x rest ih =>
    simp only [List.map_cons, List.find?_cons]
    by_cases hx : x.path = row.path
    · rw [if_pos hx]
      simp
    · rw [if_neg hx]
      rw [show (decide (x.path = row.path)) = false from by
        simp only [decide_eq_false_iff_not]; exact hx]
      apply ih
      simp only [List.any_cons, Bool.or_eq_true] at hany
      rcases hany with h1 | h1
      · rw [decide_eq_true_eq] at h1
        exact absurd h1 hx
      · exact h1

/-- After `INSERT OR REPLACE`, looking up the written path finds the new
row. -/
theorem find?_insertOrReplaceFile_self (rows : List IndexedFile) (row : IndexedFile) :
    (insertOrReplaceFile rows row).find? (fun r => decide (r.path = row.path))
      = some row := by
  unfold insertOrReplaceFile
  split
  · exact find?_replace_self rows row (by assumption)
  · rename_i hany
    rw [List.find?_append]
    have h1 : rows.find? (fun r => decide (r.path = row.path)) = none := by
      rw [List.find?_eq_none]
      intro x hx
      simp only [Bool.not_eq_true, decide_eq_false_iff_not]
      intro hpx
      exact hany (List.any_eq_true.mpr ⟨x, hx, by simp [hpx]⟩)
    rw [h1]
    simp

/-- After `INSERT OR REPLACE`, lookups of any other path are unchanged. -/
theorem find?_insertOrReplaceFile_ne (rows : List IndexedFile) (row : IndexedFile)
    (q : List Char) (hq : q ≠ row.path) :
    (insertOrReplaceFile rows row).find? (fun r => decide (r.path = q))
      = rows.find? (fun r => decide (r.path = q)) := by
  unfold insertOrReplaceFile
  split
  · rename_i hany
    clear hany
    induction rows with
    | nil => rfl
    | cons x rest ih =>
      simp only [List.map_cons, List.find?_cons]
      by_cases hx : x.path = row.path
      · rw [if_pos hx]
        rw [show (decide (row.path = q)) = false from by
          simp only [decide_eq_false_iff_not]; exact fun hh => hq (hh ▸ rfl)]
        rw [show (decide (x.path = q)) = false from by
          simp only [decide_eq_false_iff_not]; exact fun hh => hq (hh ▸ hx ▸ rfl)]
        exact ih
      · rw [if_neg hx]
        by_cases hxq : x.path = q
        · rw [show (decide (x.path = q)) = true from by simp [hxq]]
        · rw [show (decide (x.path = q)) = false from by
            simp only [decide_eq_false_iff_not]; exact hxq]
          exact ih
  · rw [List.find?_append]
    have h1 : List.find? (fun r => decide (r.path = q)) [row] = none := by
      simp only [List.find?_cons, List.find?_nil]
      rw [show (decide (row.path = q)) = false from by
        simp only [decide_eq_false_iff_not]; exact fun hh => hq hh.symm]
    rw [h1, Option.or_none]

/-- A member of the table after `INSERT OR REPLACE` is an old row or the
new one. -/
theorem mem_insertOrReplaceFile (rows : List IndexedFile) (row r : IndexedFile)
    (h : r ∈ insertOrReplaceFile rows row) : r ∈ rows ∨ r = row := by
  unfold insertOrReplaceFile at h
  split at h
  · obtain ⟨x, hx, hfx⟩ := List.mem_map.mp h
    by_cases hxp : x.path = row.path
    · rw [if_pos hxp] at hfx
      exact Or.inr hfx.symm
    · rw [if_neg hxp] at hfx
      exact Or.inl (hfx ▸ hx)
  · rcases List.mem_append.mp h with h1 | h1
    · exact Or.inl h1
    · simp only [List.mem_singleton] at h1
      exact Or.inr h1

/-! ## The indexing invariants behind C3 and C10 -/

/-- A matching stored hash makes `index_file` skip (the unchanged-file
early return). -/
theorem index_file_skip (root : List Char) (now : ℕ) (db : CodebaseDb) (e : FsEntry)
    (lang : List Char) (h : goodFor db e) :
    index_file root now db e lang = none := by
  unfold goodFor at h
  simp only [index_file]
  rw [if_pos h]

/-- What a successful `index_file` writes. -/
theorem index_file_writes (root : List Char) (now : ℕ) (db db2 : CodebaseDb)
    (e : FsEntry) (lang : List Char) (row : IndexedFile)
    (h : index_file root now db e lang = some (db2, row)) :
    row.path = e.path ∧ row.hash = compute_hash (e.readResult.getD [])
    ∧ row.content = e.readResult.getD []
    ∧ db2.files = insertOrReplaceFile db.files row := by
  by_cases hc : goodFor db e
  · rw [index_file_skip root now db e lang hc] at h
    exact absurd h (by simp)
  · unfold goodFor at hc
    simp only [index_file] at h
    rw [if_neg hc] at h
    simp only [Option.some.injEq, Prod.mk.injEq] at h
    obtain ⟨hdb, hrow⟩ := h
    subst hrow
    subst hdb
    exact ⟨rfl, rfl, rfl, rfl⟩

/-- After one walk step, the stepped entry is settled. -/
theorem step_establishes (root : List Char) (now : ℕ) (acc : CodebaseDb × ℕ)
    (e : FsEntry) : okEntry (index_step root now acc e).1 e := by
  cases hd : detect_language e.path with
  | none => exact Or.inl hd
  | some lang =>
    cases hif : index_file root now acc.1 e lang with
    | none =>
      have hstep : index_step root now acc e = acc := by
        simp only [index_step, hd, hif]
      rw [hstep]
      refine Or.inr ?_
      by_cases hc : goodFor acc.1 e
      · exact hc
      · exfalso
        unfold goodFor at hc
        simp only [index_file] at hif
        rw [if_neg hc] at hif
        exact absurd hif (by simp)
    | some pair =>
      obtain ⟨db2, row⟩ := pair
      have hstep : index_step root now acc e = (db2, acc.2 + 1) := by
        simp only [index_step, hd, hif]
      rw [hstep]
      obtain ⟨hpath, hhash, _, hfiles⟩ := index_file_writes root now acc.1 db2 e lang row hif
      refine Or.inr ?_
      unfold goodFor
      rw [hfiles, ← hpath, find?_insertOrReplaceFile_self, Option.map_some', hhash]

/-- A walk step over a different path does not unsettle an entry. -/
theorem step_preserves (root : List Char) (now : ℕ) (acc : CodebaseDb × ℕ)
    (e e2 : FsEntry) (hne : e2.path ≠ e.path) (h : okEntry acc.1 e2) :
    okEntry (index_step root now acc e).1 e2 := by
  rcases h with h | h
  · exact Or.inl h
  · refine Or.inr ?_
    cases hd : detect_language e.path with
    | none =>
      have hstep : index_step root now acc e = acc := by
        simp only [index_step, hd]
      rw [hstep]
      exact h
    | some lang =>
      cases hif : index_file root now acc.1 e lang with
      | none =>
        have hstep : index_step root now acc e = acc := by
          simp only [index_step, hd, hif]
        rw [hstep]
        exact h
      | some pair =>
        obtain ⟨db2, row⟩ := pair
        have hstep : index_step root now acc e = (db2, acc.2 + 1) := by
          simp only [index_step, hd, hif]
        rw [hstep]
        obtain ⟨hpath, _, _, hfiles⟩ := index_file_writes root now acc.1 db2 e lang row hif
        unfold goodFor at h ⊢
        rw [hfiles, find?_insertOrReplaceFile_ne acc.1.files row e2.path
          (fun hh => hne (hh.trans hpath))]
        exact h

/-- A walk over paths all different from the path of an entry does not
unsettle it. -/
theorem run_preserves (root : List Char) (now : ℕ) :
    ∀ (walk : List FsEntry) (acc : CodebaseDb × ℕ) (e2 : FsEntry),
      (∀ x ∈ walk, x.path ≠ e2.path) → okEntry acc.1 e2 →
      okEntry (walk.foldl (index_step root now) acc).1 e2 := by
  intro walk
  induction walk with
  | nil => exact fun acc e2 _ h => h
  | cons w ws ih =>
    intro acc e2 hne h
    simp only [List.foldl_cons]
    exact ih _ e2 (fun x hx => hne x (List.mem_cons_of_mem _ hx))
      (step_preserves root now acc w e2 (Ne.symm (hne w (List.mem_cons_self _ _))) h)

/-- After one full walk over distinct paths, every walked entry is
settled: its stored hash matches its current content. -/
theorem run_establishes (root : List Char) (now : ℕ) :
    ∀ (walk : List FsEntry) (acc : CodebaseDb × ℕ),
      (walk.map FsEntry.path).Nodup →
      ∀ e ∈ walk, okEntry (walk.foldl (index_step root now) acc).1 e := by
  intro walk
  induction walk with
  | nil =>
    intro acc _ e he
    simp at he
  | cons w ws ih =>
    intro acc hnd e he
    simp only [List.map_cons, List.nodup_cons] at hnd
    obtain ⟨hw, hnds⟩ := hnd
    simp only [List.foldl_cons]
    rcases List.mem_cons.mp he with rfl | hmem
    · refine run_preserves root now ws _ e (fun x hx hxe => ?_)
        (step_establishes root now acc e)
      exact hw (hxe ▸ List.mem_map_of_mem FsEntry.path hx)
    · exact ih _ hnds e hmem

/-- A walk over entries that are all settled writes nothing and counts
nothing. -/
theorem run_skip (root : List Char) (now : ℕ) :
    ∀ (walk : List FsEntry) (acc : CodebaseDb × ℕ),
      (∀ e ∈ walk, okEntry acc.1 e) →
      walk.foldl (index_step root now) acc = acc := by
  intro walk
  induction walk with
  | nil => exact fun acc _ => rfl
  | cons w ws ih =>
    intro acc h
    simp only [List.foldl_cons]
    have hw := h w (List.mem_cons_self _ _)
    have hstep : index_step root now acc w = acc := by
      cases hd : detect_language w.path with
      | none => simp only [index_step, hd]
      | some lang =>
        rcases hw with hw | hw
        · rw [hd] at hw
          exact absurd hw (by simp)
        · simp only [index_step, hd, index_file_skip root now acc.1 w lang hw]
    rw [hstep]
    exact ih acc (fun e he => h e (List.mem_cons_of_mem _ he))

/-! ## Claim C3 -/

/-- C3: with no filesystem change between them (the same walk, distinct
paths), a second `index_directory` returns 0, leaves the database —
hence the stats file count — unchanged: every walked path has a stored hash that
already equals the hash of its current content, so each row is skipped and
nothing is rewritten. -/
theorem c3_index_idempotent (root : List Char) (now now2 : ℕ) (db0 : CodebaseDb)
    (walk : List FsEntry) (hnd : (walk.map FsEntry.path).Nodup) :
    (index_directory root now2 (index_directory root now db0 walk).1 walk).2 = 0
    ∧ (index_directory root now2 (index_directory root now db0 walk).1 walk).1
      = (index_directory root now db0 walk).1
    ∧ stats_total_files (index_directory root now2 (index_directory root now db0 walk).1 walk).1
      = stats_total_files (index_directory root now db0 walk).1 := by
  have hall : ∀ e ∈ walk, okEntry (index_directory root now db0 walk).1 e :=
    run_establishes root now walk (db0, 0) hnd
  have hrun : walk.foldl (index_step root now2) ((index_directory root now db0 walk).1, 0)
      = ((index_directory root now db0 walk).1, 0) :=
    run_skip root now2 walk _ (fun e he => hall e he)
  refine ⟨?_, ?_, ?_⟩
  · show (walk.foldl (index_step root now2)
      ((index_directory root now db0 walk).1, 0)).2 = 0
    rw [hrun]
  · show (walk.foldl (index_step root now2)
      ((index_directory root now db0 walk).1, 0)).1 = (index_directory root now db0 walk).1
    rw [hrun]
  · show stats_total_files (walk.foldl (index_step root now2)
      ((index_directory root now db0 walk).1, 0)).1
      = stats_total_files (index_directory root now db0 walk).1
    rw [hrun]

/-- C3 witness: the idempotence theorem applied to a concrete two-file
walk over an empty database. -/
theorem c3_index_idempotent_witness :
    (([⟨"a.rs".data, some "fn main()".data⟩, ⟨"b.py".data, some "def f():".data⟩]
        : List FsEntry).map FsEntry.path).Nodup
    ∧ ((index_directory [] 1 (index_directory [] 0 ⟨[], []⟩
          [⟨"a.rs".data, some "fn main()".data⟩, ⟨"b.py".data, some "def f():".data⟩]).1
          [⟨"a.rs".data, some "fn main()".data⟩, ⟨"b.py".data, some "def f():".data⟩]).2 = 0
      ∧ (index_directory [] 1 (index_directory [] 0 ⟨[], []⟩
          [⟨"a.rs".data, some "fn main()".data⟩, ⟨"b.py".data, some "def f():".data⟩]).1
          [⟨"a.rs".data, some "fn main()".data⟩, ⟨"b.py".data, some "def f():".data⟩]).1
        = (index_directory [] 0 ⟨[], []⟩
          [⟨"a.rs".data, some "fn main()".data⟩, ⟨"b.py".data, some "def f():".data⟩]).1
      ∧ stats_total_files (index_directory [] 1 (index_directory [] 0 ⟨[], []⟩
          [⟨"a.rs".data, some "fn main()".data⟩, ⟨"b.py".data, some "def f():".data⟩]).1
          [⟨"a.rs".data, some "fn main()".data⟩, ⟨"b.py".data, some "def f():".data⟩]).1
        = stats_total_files (index_directory [] 0 ⟨[], []⟩
          [⟨"a.rs".data, some "fn main()".data⟩, ⟨"b.py".data, some "def f():".data⟩]).1) :=
  ⟨by decide,
    c3_index_idempotent [] 0 1 ⟨[], []⟩
      [⟨"a.rs".data, some "fn main()".data⟩, ⟨"b.py".data, some "def f():".data⟩]
      (by decide)⟩

/-! ## Claim C10 -/

/-- One walk step preserves hash integrity. -/
theorem step_hash_ok (root : List Char) (now : ℕ) (acc : CodebaseDb × ℕ)
    (e : FsEntry) (h : hash_ok acc.1) : hash_ok (index_step root now acc e).1 := by
  cases hd : detect_language e.path with
  | none =>
    have hstep : index_step root now acc e = acc := by simp only [index_step, hd]
    rw [hstep]
    exact h
  | some lang =>
    cases hif : index_file root now acc.1 e lang with
    | none =>
      have hstep : index_step root now acc e = acc := by simp only [index_step, hd, hif]
      rw [hstep]
      exact h
    | some pair =>
      obtain ⟨db2, row⟩ := pair
      have hstep : index_step root now acc e = (db2, acc.2 + 1) := by
        simp only [index_step, hd, hif]
      rw [hstep]
      obtain ⟨_, hhash, hcontent, hfiles⟩ := index_file_writes root now acc.1 db2 e lang row hif
      intro r hr
      rw [hfiles] at hr
      rcases mem_insertOrReplaceFile acc.1.files row r hr with h1 | h1
      · exact h r h1
      · subst h1
        rw [hhash, hcontent]

/-- C10: hash integrity — every stored hash equals the hash of the stored
content — holds after any directory walk and after any single successful
`index_file`, whenever it held before: every write recomputes the hash
from the very content it stores. -/
theorem c10_hash_integrity (root : List Char) (now : ℕ) (db : CodebaseDb)
    (walk : List FsEntry) (hdb : hash_ok db) :
    hash_ok (index_directory root now db walk).1
    ∧ (∀ (e : FsEntry) (lang : List Char) (db2 : CodebaseDb) (row : IndexedFile),
        index_file root now db e lang = some (db2, row) → hash_ok db2) := by
  constructor
  · have hgen : ∀ (w : List FsEntry) (acc : CodebaseDb × ℕ), hash_ok acc.1 →
        hash_ok (w.foldl (index_step root now) acc).1 := by
      intro w
      induction w with
      | nil => exact fun acc h => h
      | cons x xs ih =>
        intro acc h
        simp only [List.foldl_cons]
        exact ih _ (step_hash_ok root now acc x h)
    exact hgen walk (db, 0) hdb
  · intro e lang db2 row hif
    obtain ⟨_, hhash, hcontent, hfiles⟩ := index_file_writes root now db db2 e lang row hif
    intro r hr
    rw [hfiles] at hr
    rcases mem_insertOrReplaceFile db.files row r hr with h1 | h1
    · exact hdb r h1
    · subst h1
      rw [hhash, hcontent]

/-- C10 witness: the integrity theorem applied to an empty database and a
one-file walk. -/
theorem c10_hash_integrity_witness :
    hash_ok ⟨[], []⟩
    ∧ (hash_ok (index_directory [] 0 ⟨[], []⟩ [⟨"a.rs".data, some "fn main()".data⟩]).1
      ∧ (∀ (e : FsEntry) (lang : List Char) (db2 : CodebaseDb) (row : IndexedFile),
          index_file [] 0 ⟨[], []⟩ e lang = some (db2, row) → hash_ok db2)) :=
  ⟨fun r hr => absurd hr (List.not_mem_nil r),
    c10_hash_integrity [] 0 ⟨[], []⟩ [⟨"a.rs".data, some "fn main()".data⟩]
      (fun r hr => absurd hr (List.not_mem_nil r))⟩

/-! ## Claim C7 -/

/-- A term that does not occur as a substring occurs zero times. -/
theorem countOccAux_eq_zero (pat : List Char) :
    ∀ (text : List Char), ¬ (pat <:+: text) → countOccAux pat text 0 = 0 := by
  intro text
  induction text with
  | nil => intro _; rfl
  | cons c rest ih =>
    intro h
    by_cases hp : pat ≠ [] ∧ pat.isPrefixOf (c :: rest)
    · exfalso
      have hpre : pat <+: c :: rest := List.isPrefixOf_iff_prefix.mp hp.2
      exact h hpre.isInfix
    · simp only [countOccAux]
      rw [if_neg hp]
      exact ih (fun hin => h (List.infix_cons hin))

/-- The interior fold computes exactly what the specification describes:
the number of occurring terms and the total of all per-term occurrence
counts (terms that do not occur contribute zero occurrences). -/
theorem keyword_fold_spec (cl : List Char) (ks : List (List Char)) :
    keyword_fold cl ks
      = ((ks.filter (fun kw => containsSub cl (lowerStr kw))).length,
         (ks.map (fun kw => countOcc (lowerStr kw) cl)).sum) := by
  have hgen : ∀ (ks : List (List Char)) (acc : ℕ × ℕ),
      ks.foldl
        (fun mt kw =>
          let kw_lower := lowerStr kw
          if containsSub cl kw_lower then
            (mt.1 + 1, mt.2 + countOcc kw_lower cl)
          else mt)
        acc
      = (acc.1 + (ks.filter (fun kw => containsSub cl (lowerStr kw))).length,
         acc.2 + (ks.map (fun kw => countOcc (lowerStr kw) cl)).sum) := by
    intro ks
    induction ks with
    | nil => intro acc; simp
    | cons kw rest ih =>
      intro acc
      simp only [List.foldl_cons, List.filter_cons, List.map_cons, List.sum_cons]
      by_cases hc : containsSub cl (lowerStr kw)
      · rw [if_pos hc, if_pos hc, ih]
        simp only [List.length_cons]
        refine Prod.ext ?_ ?_
        · show acc.1 + 1 + _ = acc.1 + (_ + 1)
          omega
        · show acc.2 + countOcc (lowerStr kw) cl + _ = acc.2 + (countOcc (lowerStr kw) cl + _)
          omega
      · have hzero : countOcc (lowerStr kw) cl = 0 := by
          unfold countOcc
          refine countOccAux_eq_zero (lowerStr kw) cl (fun hin => ?_)
          exact hc (decide_eq_true hin)
        rw [if_neg hc, if_neg hc, ih, hzero]
        simp
  unfold keyword_fold
  rw [hgen ks (0, 0)]
  simp

/-- C7: the keyword score equals the specified formula
`min(1, matches/|terms| + ln(1 + total_occurrences)/10)` with
case-insensitive matching — `matches` counting the terms that occur and
`total_occurrences` summing all per-term counts — a result with score 0 is
never returned, and the keyword results are sorted by score descending and
truncated to `2 * top_k`.  All of this holds for every evaluation `lnOneP`
of the logarithmic boost, in particular the one the code computes. -/
theorem c7_keyword_search_contract (lnOneP : ℕ → ℚ) (cfg : RagConfig)
    (files : List RagFile) (query : List Char) :
    (∀ (content : List Char) (keywords : List (List Char)), keywords ≠ [] →
      calculate_keyword_score lnOneP content keywords
        = spec_keyword_score lnOneP content keywords)
    ∧ (∀ r ∈ keyword_search lnOneP cfg files query, 0 < r.score)
    ∧ List.Sorted (fun a b : SearchResult => b.score ≤ a.score)
        (keyword_search lnOneP cfg files query)
    ∧ (keyword_search lnOneP cfg files query).length ≤ cfg.top_k * 2 := by
  refine ⟨?_, ?_, ?_, ?_⟩
  · intro content keywords hne
    simp only [calculate_keyword_score, spec_keyword_score, spec_matches,
      spec_total_occurrences]
    rw [if_neg hne]
    rw [keyword_fold_spec (lowerStr content) keywords]
  · intro r hr
    unfold keyword_search at hr
    have hr2 := List.mem_mergeSort.mp ((List.take_sublist _ _).subset hr)
    obtain ⟨a, ha, hfa⟩ := List.mem_filterMap.mp hr2
    cases hread : a.readResult with
    | none =>
      simp [hread] at hfa
    | some content =>
      simp only [hread] at hfa
      by_cases hsc : 0 < calculate_keyword_score lnOneP content (splitWs query)
      · rw [if_pos hsc] at hfa
        have := Option.some_injective _ hfa
        rw [← this]
        exact hsc
      · rw [if_neg hsc] at hfa
        simp at hfa
  · unfold keyword_search
    refine List.Pairwise.sublist (List.take_sublist _ _) ?_
    have hs := @List.sorted_mergeSort SearchResult
      (fun a b : SearchResult => decide (b.score ≤ a.score))
      (fun a b c hab hbc => decide_eq_true
        (le_trans (of_decide_eq_true hbc) (of_decide_eq_true hab)))
      (fun a b => by
        show (decide (b.score ≤ a.score) || decide (a.score ≤ b.score)) = true
        rcases le_total b.score a.score with h | h
        · rw [decide_eq_true h, Bool.true_or]
        · rw [decide_eq_true h, Bool.or_true])
      (files.filterMap (fun f =>
        match f.readResult with
        | none => none
        | some content =>
          let score := calculate_keyword_score lnOneP content (splitWs query)
          if 0 < score then
            some ⟨⟨f.path, content, 1, f.lines, rag_detect_language f.path, f.embedding⟩,
              score, MatchType.keyword⟩
          else none))
    exact hs.imp (fun h => of_decide_eq_true h)
  · unfold keyword_search
    rw [List.length_take]
    exact min_le_left _ _

/-- C7 witness: the contract applied to a one-file store and a one-term
query with a trivial logarithmic boost. -/
theorem c7_keyword_search_contract_witness :
    (["foo".data] : List (List Char)) ≠ []
    ∧ calculate_keyword_score (fun _ => 0) "fn foo".data ["foo".data]
        = spec_keyword_score (fun _ => 0) "fn foo".data ["foo".data]
    ∧ (∀ r ∈ keyword_search (fun _ => 0) ragConfigDefault
          [⟨"a.rs".data, some "fn foo".data, 1, none⟩] "foo".data, 0 < r.score)
    ∧ List.Sorted (fun a b : SearchResult => b.score ≤ a.score)
        (keyword_search (fun _ => 0) ragConfigDefault
          [⟨"a.rs".data, some "fn foo".data, 1, none⟩] "foo".data)
    ∧ (keyword_search (fun _ => 0) ragConfigDefault
          [⟨"a.rs".data, some "fn foo".data, 1, none⟩] "foo".data).length
        ≤ ragConfigDefault.top_k * 2 :=
  ⟨by decide,
    (c7_keyword_search_contract (fun _ => 0) ragConfigDefault
      [⟨"a.rs".data, some "fn foo".data, 1, none⟩] "foo".data).1
      "fn foo".data ["foo".data] (by decide),
    (c7_keyword_search_contract (fun _ => 0) ragConfigDefault
      [⟨"a.rs".data, some "fn foo".data, 1, none⟩] "foo".data).2.1,
    (c7_keyword_search_contract (fun _ => 0) ragConfigDefault
      [⟨"a.rs".data, some "fn foo".data, 1, none⟩] "foo".data).2.2.1,
    (c7_keyword_search_contract (fun _ => 0) ragConfigDefault
      [⟨"a.rs".data, some "fn foo".data, 1, none⟩] "foo".data).2.2.2⟩

end Sovereign
